import Mathlib

/-!
Verification development for the DVEL (Decentralized Verifiable Event Ledger)
reference stack.  The deterministic core (ledger, validation, sybil overlay,
tip selection) is declared in `include/dvel_ffi.h` and implemented in a Rust
crate that is not part of the distributed sources, so those operations are
modelled from the specification.  The C++ node runtime (`cpp-sim/core/node.hpp`)
is embedded directly from its source.  SHA-256 and ed25519 verification are
kept abstract: every definition that hashes or verifies takes the hash
function (`sha`) or the verifier (`verify`) as an explicit parameter, and all
theorems hold for every choice of these parameters.
-/

/-- A hash value: a list of bytes (32 bytes for real hashes). -/
abbrev H : Type := List Nat

/-- A public key, 32 bytes. -/
abbrev PubKey : Type := List Nat

/-- The all-zero 32-byte hash, the genesis sentinel meaning "no parent". -/
def zeroHash : H := List.replicate 32 0

/-- Little-endian fixed-width encoding of a 64-bit timestamp, 8 bytes. -/
def u64le (n : Nat) : List Nat :=
  [n % 256, n / 256 % 256, n / 256 ^ 2 % 256, n / 256 ^ 3 % 256,
   n / 256 ^ 4 % 256, n / 256 ^ 5 % 256, n / 256 ^ 6 % 256, n / 256 ^ 7 % 256]

/-- Association-list lookup keyed by byte lists (models the Rust `HashMap`). -/
def alookup {β : Type} : List (List Nat × β) → List Nat → Option β
  | [], _ => none
  | (k, v) :: rest, key => if k = key then some v else alookup rest key

/-- Association-list update: remove every binding of `k` and bind `k` to `v`. -/
def aset {β : Type} (l : List (List Nat × β)) (k : List Nat) (v : β) :
    List (List Nat × β) :=
  (k, v) :: l.filter (fun p => p.1 ≠ k)

/-- Remove every binding of `k` from an association list. -/
def removeKey {β : Type} (l : List (List Nat × β)) (k : List Nat) :
    List (List Nat × β) :=
  l.filter (fun p => p.1 ≠ k)

/-- Lexicographic `≤` on byte lists, as used for Merkle leaves and
tie-breaking in tip selection. -/
def hashLe : List Nat → List Nat → Bool
  | [], _ => true
  | _ :: _, [] => false
  | a :: as, b :: bs => decide (a < b) || (a == b && hashLe as bs)

/-- The lexicographic order as a proposition, for the sorting lemmas. -/
def hle (a b : List Nat) : Prop := hashLe a b = true

instance : DecidableRel hle := fun a b => instDecidableEqBool (hashLe a b) true

/-- Sort a list of hashes lexicographically (Merkle leaves are sorted keys). -/
def sortHashes (l : List H) : List H := List.insertionSort hle l

/-- Modelled from the spec: the fixed-layout event record mirrored by
`dvel_event_t` in `include/dvel_ffi.h`; the Rust struct itself is not in the
distributed sources. -/
structure Event where
  version : Nat
  prev_hash : H
  author : PubKey
  timestamp : Nat
  payload_hash : H
  signature : List Nat
deriving DecidableEq, Repr

/-- Modelled from the spec: canonical bytes
`version ‖ prev_hash ‖ author ‖ timestamp(LE u64) ‖ payload_hash`
(signature excluded); the Rust serializer is not in the distributed sources. -/
def canonical_bytes (E : Event) : List Nat :=
  E.version % 256 :: (E.prev_hash ++ E.author ++ u64le E.timestamp ++ E.payload_hash)

/-- Modelled from the spec: event identity
`hash_event(E) = sha256(canonical_bytes(E) ‖ E.signature)`
(`dvel_hash_event_struct`); the hash function is an explicit parameter. -/
def hash_event (sha : List Nat → H) (E : Event) : H :=
  sha (canonical_bytes E ++ E.signature)

/-- Modelled from the spec: ledger state — accepted events keyed by hash, the
parent → child index and the tip set (`dvel_ledger_t` is an opaque Rust
handle not present in the distributed sources). -/
structure Ledger where
  events : List (H × Event)
  parent_index : List (H × H)
  tips : List H
deriving DecidableEq, Repr

/-- The empty ledger (`dvel_ledger_new`). -/
def emptyLedger : Ledger := { events := [], parent_index := [], tips := [] }

/-- Result of a linkage-aware insert (`dvel_link_result_t`). -/
inductive LinkResult where
  | LinkOk (h : H)
  | Duplicate
  | MissingParent
deriving DecidableEq, Repr

/-- Modelled from the spec: `dvel_ledger_link_event` — duplicate check, then
parent-existence check unless genesis, then insert updating the parent index
and the tip set.  The Rust implementation is not in the distributed sources. -/
def link_event (sha : List Nat → H) (L : Ledger) (E : Event) :
    LinkResult × Ledger :=
  let h := hash_event sha E
  if (alookup L.events h).isSome then (LinkResult.Duplicate, L)
  else if E.prev_hash ≠ zeroHash ∧ alookup L.events E.prev_hash = none then
    (LinkResult.MissingParent, L)
  else
    (LinkResult.LinkOk h,
      { events := (h, E) :: L.events
        parent_index :=
          if E.prev_hash ≠ zeroHash then (E.prev_hash, h) :: L.parent_index
          else L.parent_index
        tips := h :: L.tips.filter (fun t => t ≠ E.prev_hash) })

/-- Modelled from the spec: the bounded ancestor walk — follow `prev_hash`
from `desc` for up to `max_steps` hops and report whether `anc` is met
(`anc` must be non-zero).  The Rust walker is not in the distributed
sources. -/
def ancestorWalk (L : Ledger) (anc : H) : H → Nat → Bool
  | _, 0 => false
  | cur, Nat.succ fuel =>
    match alookup L.events cur with
    | none => false
    | some E =>
      if E.prev_hash = anc then true
      else if E.prev_hash = zeroHash then false
      else ancestorWalk L anc E.prev_hash fuel

/-- Modelled from the spec: `is_ancestor(ancestor, descendant, max_steps)`. -/
def is_ancestor (L : Ledger) (anc desc : H) (max_steps : Nat) : Bool :=
  if anc = zeroHash then false else ancestorWalk L anc desc max_steps

/-- One Merkle fold level: pair adjacent nodes, duplicating the last node of
an odd-length level; the parent of a pair is `sha(left ‖ right)`. -/
def foldLevel (sha : List Nat → H) : List H → List H
  | [] => []
  | [x] => [sha (x ++ x)]
  | x :: y :: rest => sha (x ++ y) :: foldLevel sha rest

/-- Iterate `foldLevel` until one node remains; `fuel` bounds the number of
levels (any `fuel ≥ length` suffices, see `merkle_fold_isSome`). -/
def merkle_fold (sha : List Nat → H) : Nat → List H → Option H
  | _, [] => none
  | _, [x] => some x
  | 0, _ :: _ :: _ => none
  | Nat.succ fuel, x :: y :: rest => merkle_fold sha fuel (foldLevel sha (x :: y :: rest))

/-- Modelled from the spec: `dvel_ledger_merkle_root` — `none` on the empty
ledger, otherwise the pairwise fold (duplicate-last on odd levels) over the
lexicographically sorted accepted hashes.  The Rust implementation is not in
the distributed sources. -/
def merkle_root (sha : List Nat → H) (L : Ledger) : Option H :=
  let keys := L.events.map Prod.fst
  merkle_fold sha keys.length (sortHashes keys)

/-- Validation outcome (`dvel_validation_result_t`). -/
inductive ValidationResult where
  | Ok
  | InvalidVersion
  | InvalidSignature
  | TimestampNonMonotonic
deriving DecidableEq, Repr

/-- Per-author validation context (`dvel_validation_ctx_t`). -/
structure ValidationCtx where
  last_timestamp : Nat
deriving DecidableEq, Repr

/-- Modelled from the spec: `dvel_validate_event` — version check, ed25519
signature check over the canonical bytes (the verifier is an explicit
parameter), then bounded timestamp monotonicity with
`skew = max(1, configured_max_backward_skew)`; on `Ok` the context's
`last_timestamp` advances to the max.  The Rust implementation is not in the
distributed sources. -/
def validate_event (verify : PubKey → List Nat → List Nat → Bool)
    (skewCfg : Nat) (E : Event) (ctx : ValidationCtx) :
    ValidationResult × ValidationCtx :=
  if E.version ≠ 1 then (ValidationResult.InvalidVersion, ctx)
  else if verify E.author (canonical_bytes E) E.signature = false then
    (ValidationResult.InvalidSignature, ctx)
  else if 0 < ctx.last_timestamp ∧ E.timestamp + max 1 skewCfg < ctx.last_timestamp then
    (ValidationResult.TimestampNonMonotonic, ctx)
  else
    (ValidationResult.Ok, { last_timestamp := max ctx.last_timestamp E.timestamp })

/-- Sybil overlay configuration (`dvel_sybil_config_t`). -/
structure SybilConfig where
  warmup_ticks : Nat
  quarantine_ticks : Nat
  fixed_point_scale : Nat
  max_link_walk : Nat
deriving DecidableEq, Repr

/-- Per-author overlay state: latest accepted tip, warmup origin and
quarantine window. -/
structure AuthorState where
  latest_tip : Option H
  first_seen_tick : Nat
  quarantined_until : Nat
deriving DecidableEq, Repr

/-- One deterministic trace row per observed accept (`dvel_trace_row_t`).
The `merkle_root` and `preferred_tip` fields are nullable per the spec. -/
structure TraceRow where
  prev_hash : H
  author : PubKey
  timestamp : Nat
  payload_hash : H
  signature : List Nat
  parent_present : Bool
  ancestor_check : Bool
  quarantined_until_before : Nat
  quarantined_until_after : Nat
  merkle_root : Option H
  preferred_tip : Option H
  author_weight_fp : Nat
deriving DecidableEq, Repr

/-- Modelled from the spec: the sybil overlay — config, per-author state map
and the attached append-only trace (`dvel_sybil_overlay_t` is an opaque Rust
handle not present in the distributed sources). -/
structure SybilOverlay where
  config : SybilConfig
  state : List (PubKey × AuthorState)
  trace : List TraceRow
deriving DecidableEq, Repr

/-- Modelled from the spec: `dvel_sybil_overlay_author_weight_fp` — 0 for an
unknown or quarantined author, the full scale after warmup, and the integer
linear ramp `scale * age / warmup_ticks` during warmup.  The Rust
implementation is not in the distributed sources. -/
def author_weight_fp (ov : SybilOverlay) (tick : Nat) (author : PubKey) : Nat :=
  match alookup ov.state author with
  | none => 0
  | some st =>
    if tick < st.quarantined_until then 0
    else
      let age := tick - st.first_seen_tick
      if ov.config.warmup_ticks ≤ age then ov.config.fixed_point_scale
      else ov.config.fixed_point_scale * age / ov.config.warmup_ticks

/-- Modelled from the spec: `dvel_sybil_overlay_observe_event` — no-op on an
unknown hash; otherwise equivocation detection through the bounded ancestor
predicate, quarantine extension, latest-tip update, and one appended trace
row.  The Rust implementation is not in the distributed sources. -/
def observe_event (L : Ledger) (tick observer : Nat) (h : H)
    (ov : SybilOverlay) : SybilOverlay :=
  match alookup L.events h with
  | none => ov
  | some E =>
    let pre := (alookup ov.state E.author).getD
      { latest_tip := none, first_seen_tick := 0, quarantined_until := 0 }
    let fs := match pre.latest_tip with
      | none => tick
      | some _ => pre.first_seen_tick
    let ancestorOk := match pre.latest_tip with
      | none => true
      | some pt =>
        is_ancestor L pt h ov.config.max_link_walk ||
          is_ancestor L h pt ov.config.max_link_walk
    let q2 := if ancestorOk then pre.quarantined_until
      else max pre.quarantined_until (tick + ov.config.quarantine_ticks)
    let stNew : AuthorState :=
      { latest_tip := some h, first_seen_tick := fs, quarantined_until := q2 }
    let ov2 : SybilOverlay := { ov with state := aset ov.state E.author stNew }
    let row : TraceRow :=
      { prev_hash := E.prev_hash, author := E.author, timestamp := E.timestamp
        payload_hash := E.payload_hash, signature := E.signature
        parent_present := decide (E.prev_hash ≠ zeroHash)
        ancestor_check := ancestorOk
        quarantined_until_before := pre.quarantined_until
        quarantined_until_after := q2
        merkle_root := none, preferred_tip := none
        author_weight_fp := author_weight_fp ov2 tick E.author }
    { ov2 with trace := ov.trace ++ [row] }

/-- Modelled from the spec: chain length from a tip back toward genesis,
bounded by `max_steps` (the unit-policy score). -/
def chain_len (L : Ledger) : H → Nat → Nat
  | _, 0 => 0
  | cur, Nat.succ fuel =>
    match alookup L.events cur with
    | none => 0
    | some E =>
      if E.prev_hash = zeroHash then 1 else 1 + chain_len L E.prev_hash fuel

/-- Scored-tip comparison: strictly higher score wins, and on a score tie the
lexicographically smaller hash wins. -/
def betterTip (a b : H × Nat) : Bool :=
  decide (b.2 < a.2) || (a.2 == b.2 && !hashLe b.1 a.1)

/-- Fold a candidate list to the preferred entry under `betterTip`;
`none` exactly on the empty list. -/
def pick_best : List (H × Nat) → Option (H × Nat)
  | [] => none
  | x :: xs =>
    some ((pick_best xs).elim x (fun y => if betterTip x y then x else y))

/-- Modelled from the spec: `dvel_select_preferred_tip` under the unit
policy — each tip scored by bounded chain length, ties broken toward the
lexicographically smallest hash; callers pass a tick which the unit policy
ignores.  The Rust implementation is not in the distributed sources. -/
def select_preferred_tip (L : Ledger) (tick : Nat) (max_steps : Nat) :
    Option (H × Nat) :=
  pick_best (L.tips.map (fun t => (t, chain_len L t max_steps)))

/-- The events encountered walking `prev_hash` from `cur`, at most `fuel`
of them. -/
def walk_chain (L : Ledger) : H → Nat → List Event
  | _, 0 => []
  | cur, Nat.succ fuel =>
    match alookup L.events cur with
    | none => []
    | some E =>
      E :: (if E.prev_hash = zeroHash then [] else walk_chain L E.prev_hash fuel)

/-- Modelled from the spec: the sybil-aware score of a tip — the sum of
`author_weight_fp` over the distinct authors encountered on the bounded walk
whose overlay latest tip is this tip. -/
def sybil_score (L : Ledger) (ov : SybilOverlay) (tick : Nat) (t : H)
    (max_steps : Nat) : Nat :=
  let authors := (((walk_chain L t max_steps).map Event.author).dedup).filter
    (fun a =>
      match alookup ov.state a with
      | some st => st.latest_tip = some t
      | none => false)
  (authors.map (author_weight_fp ov tick)).sum

/-- Modelled from the spec: `dvel_select_preferred_tip_sybil` — tips scored
by the sybil-aware latest-per-author weight sum, ties broken toward the
lexicographically smallest hash.  The Rust implementation is not in the
distributed sources. -/
def select_preferred_tip_sybil (L : Ledger) (ov : SybilOverlay) (tick : Nat)
    (max_steps : Nat) : Option (H × Nat) :=
  pick_best (L.tips.map (fun t => (t, sybil_score L ov tick t max_steps)))

/-- Simulator message kind (`dvelsim::MsgType`, `cpp-sim/core/types.hpp`). -/
inductive MsgType where
  | Event
deriving DecidableEq, Repr

/-- Simulator message (`dvelsim::Message`, `cpp-sim/core/types.hpp`);
the C++ `from`/`to` fields are named `from_`/`to_` here because `from` is a
Lean keyword. -/
structure Message where
  mtype : MsgType
  from_ : Nat
  to_ : Nat
  event : Event
deriving DecidableEq, Repr

/-- Per-node processing statistics (`dvelsim::ProcessStats`). -/
structure ProcessStats where
  accepted : Nat := 0
  rejected_perm : Nat := 0
  pending_added : Nat := 0
  pending_drained : Nat := 0
  pending_dropped : Nat := 0
deriving DecidableEq, Repr

/-- `NodeRuntime::MAX_SEEN` (`cpp-sim/core/node.hpp`). -/
def MAX_SEEN : Nat := 8192

/-- `NodeRuntime::MAX_PENDING_TOTAL` (`cpp-sim/core/node.hpp`). -/
def MAX_PENDING_TOTAL : Nat := 16384

/-- `NodeRuntime::MAX_DRAIN_STEPS` (`cpp-sim/core/node.hpp`). -/
def MAX_DRAIN_STEPS : Nat := 16384

/-- The process-wide backward-skew setting installed by the `NodeRuntime`
constructor (`dvel_set_max_backward_skew(1'000'000)`). -/
def NODE_MAX_BACKWARD_SKEW : Nat := 1000000

/-- The mutable state of one `dvelsim::NodeRuntime` (`cpp-sim/core/node.hpp`):
its ledger and overlay handles, per-author validation contexts, the bounded
dedup cache, the pending pool keyed by missing parent with its size counter,
and the inbox. -/
structure NodeState where
  node_id : Nat
  ledger : Ledger
  overlay : SybilOverlay
  vctx_by_author : List (PubKey × ValidationCtx)
  seen_hashes : List H
  pending_by_parent : List (H × List Message)
  pending_total : Nat
  inbox : List Message
deriving DecidableEq, Repr

/-- The overlay configuration installed by the `NodeRuntime` constructor:
`warmup_ticks=4`, `quarantine_ticks=12`, `fixed_point_scale=1000`,
`max_link_walk=4096`. -/
def initOverlay : SybilOverlay :=
  { config := { warmup_ticks := 4, quarantine_ticks := 12,
                fixed_point_scale := 1000, max_link_walk := 4096 }
    state := [], trace := [] }

/-- A freshly constructed node (`NodeRuntime::NodeRuntime`): empty ledger,
default overlay config, the local author's validation context initialized. -/
def initNode (id : Nat) (author : PubKey) : NodeState :=
  { node_id := id, ledger := emptyLedger, overlay := initOverlay
    vctx_by_author := aset [] author { last_timestamp := 0 }
    seen_hashes := [], pending_by_parent := [], pending_total := 0, inbox := [] }

/-- `NodeRuntime::vctx_for_`: fetch the author's validation context, creating
a zero-initialized one on first use. -/
def vctx_for (st : NodeState) (author : PubKey) : ValidationCtx × NodeState :=
  match alookup st.vctx_by_author author with
  | some ctx => (ctx, st)
  | none =>
    ({ last_timestamp := 0 },
     { st with vctx_by_author := aset st.vctx_by_author author { last_timestamp := 0 } })

/-- Append a message to the pending bucket of its missing parent. -/
def addPending (l : List (H × List Message)) (k : H) (m : Message) :
    List (H × List Message) :=
  match alookup l k with
  | none => (k, [m]) :: l
  | some b => aset l k (b ++ [m])

/-- `NodeRuntime::queue_pending_`: drop the message (counting
`pending_dropped`) when the pool is at `MAX_PENDING_TOTAL`, otherwise store
it keyed by its `prev_hash` and grow the counter. -/
def queue_pending_ (st : NodeState) (m : Message) (stats : ProcessStats) :
    NodeState × ProcessStats :=
  if MAX_PENDING_TOTAL ≤ st.pending_total then
    (st, { stats with pending_dropped := stats.pending_dropped + 1 })
  else
    ({ st with
        pending_by_parent := addPending st.pending_by_parent m.event.prev_hash m
        pending_total := st.pending_total + 1 },
     { stats with pending_added := stats.pending_added + 1 })

/-- Re-queue each leftover message in order through `queue_pending_`
(the tail loop of `NodeRuntime::drain_pending_for_parent_`). -/
def requeue_all (st : NodeState) : List Message → ProcessStats →
    NodeState × ProcessStats
  | [], stats => (st, stats)
  | m :: rest, stats =>
    let r := queue_pending_ st m stats
    requeue_all r.1 rest r.2

/-- The loop body of `NodeRuntime::drain_pending_for_parent_`: process the
extracted bucket for up to `MAX_DRAIN_STEPS` children — re-validate, link,
observe on accept and recurse (through `dp`) into the newly linked hash —
then re-queue any leftovers.  `dp` is the recursive drain continuation. -/
def drain_bucket (sha : List Nat → H) (verify : PubKey → List Nat → List Nat → Bool)
    (dp : NodeState → H → ProcessStats → NodeState × ProcessStats) :
    NodeState → List Message → Nat → Nat → ProcessStats →
    NodeState × ProcessStats
  | st, [], _, _, stats => (st, stats)
  | st, child :: rest, 0, _, stats => requeue_all st (child :: rest) stats
  | st, child :: rest, Nat.succ steps, now_tick, stats =>
    let cr := vctx_for st child.event.author
    let vr := validate_event verify NODE_MAX_BACKWARD_SKEW child.event cr.1
    let stB := { cr.2 with
      vctx_by_author := aset cr.2.vctx_by_author child.event.author vr.2 }
    if vr.1 = ValidationResult.Ok then
      let lr := link_event sha stB.ledger child.event
      match lr.1 with
      | LinkResult.LinkOk out =>
        let stC := { stB with ledger := lr.2 }
        if stC.seen_hashes.contains out then
          drain_bucket sha verify dp stC rest steps now_tick stats
        else
          let stD := { stC with
            overlay := observe_event lr.2 now_tick stC.node_id out stC.overlay }
          let stats2 := { stats with
            accepted := stats.accepted + 1
            pending_drained := stats.pending_drained + 1 }
          let r := dp stD out stats2
          drain_bucket sha verify dp r.1 rest steps now_tick r.2
      | LinkResult.Duplicate =>
        drain_bucket sha verify dp { stB with ledger := lr.2 } rest steps now_tick stats
      | LinkResult.MissingParent =>
        let r := queue_pending_ { stB with ledger := lr.2 } child stats
        drain_bucket sha verify dp r.1 rest steps now_tick r.2
    else
      drain_bucket sha verify dp stB rest steps now_tick
        { stats with rejected_perm := stats.rejected_perm + 1 }

/-- `NodeRuntime::drain_pending_for_parent_`: extract the bucket waiting on
`parent`, shrink `pending_total` (saturating, as the C++ guards), and run the
drain loop.  `fuel` bounds the recursion depth into grandchildren; the C++
recursion is finite because every nested drain follows a newly accepted
event, and every theorem below holds for every `fuel`. -/
def drain_pending_for_parent_ (sha : List Nat → H)
    (verify : PubKey → List Nat → List Nat → Bool) :
    Nat → NodeState → H → Nat → ProcessStats → NodeState × ProcessStats
  | 0, st, _, _, stats => (st, stats)
  | Nat.succ fuel, st, parent, now_tick, stats =>
    match alookup st.pending_by_parent parent with
    | none => (st, stats)
    | some bucket =>
      let st1 := { st with
        pending_by_parent := removeKey st.pending_by_parent parent
        pending_total := st.pending_total - bucket.length }
      drain_bucket sha verify
        (fun s p acc => drain_pending_for_parent_ sha verify fuel s p now_tick acc)
        st1 bucket MAX_DRAIN_STEPS now_tick stats

/-- Outcome of the core accept path (`NodeRuntime::AcceptResult`). -/
inductive AcceptResult where
  | Accepted
  | Pending
  | RejectedPerm
deriving DecidableEq, Repr

/-- `NodeRuntime::accept_or_queue_`: dedup-cache check, validation, linkage;
on accept observe the hash, refresh the dedup cache (clearing it past
`MAX_SEEN`) and drain waiting children; queue on a missing parent. -/
def accept_or_queue_ (sha : List Nat → H)
    (verify : PubKey → List Nat → List Nat → Bool) (fuel : Nat)
    (st : NodeState) (m : Message) (now_tick : Nat) (stats : ProcessStats) :
    AcceptResult × NodeState × ProcessStats :=
  let ev_hash := hash_event sha m.event
  if st.seen_hashes.contains ev_hash then (AcceptResult.RejectedPerm, st, stats)
  else
    let cr := vctx_for st m.event.author
    let vr := validate_event verify NODE_MAX_BACKWARD_SKEW m.event cr.1
    let stB := { cr.2 with
      vctx_by_author := aset cr.2.vctx_by_author m.event.author vr.2 }
    if vr.1 ≠ ValidationResult.Ok then
      (AcceptResult.RejectedPerm, stB,
       { stats with rejected_perm := stats.rejected_perm + 1 })
    else
      let lr := link_event sha stB.ledger m.event
      match lr.1 with
      | LinkResult.LinkOk out =>
        let stC := { stB with
          ledger := lr.2
          overlay := observe_event lr.2 now_tick stB.node_id out stB.overlay }
        let seen2 := out :: stC.seen_hashes
        let stD := { stC with
          seen_hashes := if MAX_SEEN < seen2.length then [] else seen2 }
        let r := drain_pending_for_parent_ sha verify fuel stD out now_tick
          { stats with accepted := stats.accepted + 1 }
        (AcceptResult.Accepted, r.1, r.2)
      | LinkResult.Duplicate =>
        (AcceptResult.RejectedPerm, { stB with ledger := lr.2 }, stats)
      | LinkResult.MissingParent =>
        let r := queue_pending_ { stB with ledger := lr.2 } m stats
        (AcceptResult.Pending, r.1, r.2)

/-- `NodeRuntime::local_append`: run the accept path with a throwaway stats
record, discard its result, and return `true`. -/
def local_append (sha : List Nat → H)
    (verify : PubKey → List Nat → List Nat → Bool) (fuel : Nat)
    (st : NodeState) (m : Message) (now_tick : Nat) : Bool × NodeState :=
  let r := accept_or_queue_ sha verify fuel st m now_tick {}
  (true, r.2.1)

/-- `NodeRuntime::inbox_push`. -/
def inbox_push (st : NodeState) (m : Message) : NodeState :=
  { st with inbox := st.inbox ++ [m] }

/-- The inbox loop of `NodeRuntime::process_inbox`, processing the popped
messages in order. -/
def process_msgs (sha : List Nat → H)
    (verify : PubKey → List Nat → List Nat → Bool) (fuel : Nat) :
    NodeState → List Message → Nat → ProcessStats → NodeState × ProcessStats
  | st, [], _, stats => (st, stats)
  | st, m :: rest, now_tick, stats =>
    let r := accept_or_queue_ sha verify fuel st m now_tick stats
    process_msgs sha verify fuel r.2.1 rest now_tick r.2.2

/-- `NodeRuntime::process_inbox`: drain the inbox front-to-back through the
accept path, returning the accumulated stats. -/
def process_inbox (sha : List Nat → H)
    (verify : PubKey → List Nat → List Nat → Bool) (fuel : Nat)
    (st : NodeState) (now_tick : Nat) : NodeState × ProcessStats :=
  process_msgs sha verify fuel { st with inbox := [] } st.inbox now_tick {}

/-- One externally driven node operation, for stating invariants over whole
call sequences. -/
inductive NodeOp where
  | localAppend (m : Message) (tick : Nat)
  | processInbox (tick : Nat)
  | inboxPush (m : Message)

/-- Run a sequence of node operations from a starting state. -/
def runOps (sha : List Nat → H)
    (verify : PubKey → List Nat → List Nat → Bool) (fuel : Nat) :
    NodeState → List NodeOp → NodeState
  | st, [] => st
  | st, op :: rest =>
    let st2 := match op with
      | NodeOp.localAppend m tick => (local_append sha verify fuel st m tick).2
      | NodeOp.processInbox tick => (process_inbox sha verify fuel st tick).1
      | NodeOp.inboxPush m => inbox_push st m
    runOps sha verify fuel st2 rest

/-- A concrete stand-in hash function used for witnesses: it returns bytes
73..104 of its input, which for `hash_event` inputs is the event's
`payload_hash`.  The theorems hold for every hash function; this one only
makes witnesses computable. -/
def shaPayload (l : List Nat) : List Nat := (l.drop 73).take 32

/-- A concrete verifier that accepts everything, for witnesses. -/
def verifyTrue : PubKey → List Nat → List Nat → Bool := fun _ _ _ => true

/-- A concrete author key for the witness scenarios. -/
def secA : PubKey := List.replicate 32 1

/-- A small overlay configuration for the witness scenarios (the warmup,
quarantine and scale of the node runtime, with a small walk bound). -/
def cfgSmall : SybilConfig :=
  { warmup_ticks := 4, quarantine_ticks := 12, fixed_point_scale := 1000,
    max_link_walk := 8 }

/-- A fresh overlay under `cfgSmall`. -/
def ovSmall : SybilOverlay := { config := cfgSmall, state := [], trace := [] }

/-- Genesis event with payload byte 7. -/
def evGen : Event :=
  { version := 1, prev_hash := zeroHash, author := secA, timestamp := 1,
    payload_hash := List.replicate 32 7, signature := List.replicate 64 0 }

/-- An event with the same payload as `evGen` (hence the same `shaPayload`
identity hash) but a non-zero, absent parent. -/
def evClash : Event :=
  { version := 1, prev_hash := List.replicate 32 9, author := secA,
    timestamp := 2, payload_hash := List.replicate 32 7,
    signature := List.replicate 64 0 }

/-- The ledger holding exactly `evGen`. -/
def ledgerC1 : Ledger := (link_event shaPayload emptyLedger evGen).2

/-- First genesis-parent event of the equivocation scenario (payload 3). -/
def evA4 : Event :=
  { version := 1, prev_hash := zeroHash, author := secA, timestamp := 1,
    payload_hash := List.replicate 32 3, signature := List.replicate 64 0 }

/-- Second genesis-parent event of the equivocation scenario (payload 4). -/
def evB4 : Event :=
  { version := 1, prev_hash := zeroHash, author := secA, timestamp := 2,
    payload_hash := List.replicate 32 4, signature := List.replicate 64 0 }

/-- Ledger with `evA4` linked first, then `evB4`. -/
def ledger4 : Ledger :=
  (link_event shaPayload (link_event shaPayload emptyLedger evA4).2 evB4).2

/-- Ledger with the same two events linked in the reverse order. -/
def ledger4r : Ledger :=
  (link_event shaPayload (link_event shaPayload emptyLedger evB4).2 evA4).2

/-- Overlay after observing `evA4` at tick 5. -/
def ov4a : SybilOverlay :=
  observe_event ledger4 5 0 (hash_event shaPayload evA4) ovSmall

/-- Overlay after additionally observing the equivocating `evB4` at tick 5. -/
def ov4 : SybilOverlay :=
  observe_event ledger4 5 0 (hash_event shaPayload evB4) ov4a

/-- Event for the warmup-ramp scenario (payload 5). -/
def ev5 : Event :=
  { version := 1, prev_hash := zeroHash, author := secA, timestamp := 1,
    payload_hash := List.replicate 32 5, signature := List.replicate 64 0 }

/-- Ledger holding exactly `ev5`. -/
def ledger5 : Ledger := (link_event shaPayload emptyLedger ev5).2

/-- Overlay after first observing `ev5` at tick 10 (warmup origin 10). -/
def ov5 : SybilOverlay :=
  observe_event ledger5 10 0 (hash_event shaPayload ev5) ovSmall

/-- A hash absent from every witness ledger. -/
def hUnknown : H := List.replicate 32 8

/-- A concrete message carrying `evGen`, for the node-runtime witnesses. -/
def msgGen : Message := { mtype := MsgType.Event, from_ := 0, to_ := 0, event := evGen }

theorem hashLe_refl : ∀ l : List Nat, hashLe l l = true
  | [] => rfl
  | a :: as => by simp [hashLe, hashLe_refl as]

theorem hashLe_total : ∀ a b : List Nat, hashLe a b = true ∨ hashLe b a = true
  | [], _ => Or.inl rfl
  | _ :: _, [] => Or.inr rfl
  | a :: as, b :: bs => by
    rcases Nat.lt_trichotomy a b with h | h | h
    · left; simp [hashLe, h]
    · subst h
      rcases hashLe_total as bs with ih | ih
      · left; simp [hashLe, ih]
      · right; simp [hashLe, ih]
    · right; simp [hashLe, h]

theorem hashLe_trans : ∀ a b c : List Nat,
    hashLe a b = true → hashLe b c = true → hashLe a c = true
  | [], _, _, _, _ => by simp [hashLe]
  | _ :: _, [], _, hab, _ => by simp [hashLe] at hab
  | _ :: _, _ :: _, [], _, hbc => by simp [hashLe] at hbc
  | a :: as, b :: bs, c :: cs, hab, hbc => by
    simp only [hashLe, Bool.or_eq_true, Bool.and_eq_true, decide_eq_true_eq,
      beq_iff_eq] at hab hbc ⊢
    rcases hab with h1 | ⟨h1, h1t⟩
    · rcases hbc with h2 | ⟨h2, _⟩
      · exact Or.inl (h1.trans h2)
      · exact Or.inl (h2 ▸ h1)
    · rcases hbc with h2 | ⟨h2, h2t⟩
      · exact Or.inl (h1 ▸ h2)
      · exact Or.inr ⟨h1.trans h2, hashLe_trans as bs cs h1t h2t⟩

theorem hashLe_antisymm : ∀ a b : List Nat,
    hashLe a b = true → hashLe b a = true → a = b
  | [], [], _, _ => rfl
  | [], _ :: _, _, hba => by simp [hashLe] at hba
  | _ :: _, [], hab, _ => by simp [hashLe] at hab
  | a :: as, b :: bs, hab, hba => by
    simp only [hashLe, Bool.or_eq_true, Bool.and_eq_true, decide_eq_true_eq,
      beq_iff_eq] at hab hba
    rcases hab with h1 | ⟨h1, h1t⟩
    · rcases hba with h2 | ⟨h2, _⟩ <;> omega
    · rcases hba with h2 | ⟨h2, h2t⟩
      · omega
      · rw [h1, hashLe_antisymm as bs h1t h2t]

theorem alookup_aset_self {β : Type} (l : List (List Nat × β)) (k : List Nat)
    (v : β) : alookup (aset l k v) k = some v := by
  simp [aset, alookup]

theorem betterTip_eq_false_iff (a b : H × Nat) :
    betterTip a b = false ↔ (¬ b.2 < a.2 ∧ (a.2 = b.2 → hashLe b.1 a.1 = true)) := by
  simp only [betterTip, Bool.or_eq_false_iff, decide_eq_false_iff_not,
    Bool.and_eq_false_iff, beq_eq_false_iff_ne, ne_eq, Bool.not_eq_false']
  constructor
  · rintro ⟨h1, h2 | h2⟩
    · exact ⟨h1, fun he => absurd he h2⟩
    · exact ⟨h1, fun _ => h2⟩
  · rintro ⟨h1, h2⟩
    by_cases he : a.2 = b.2
    · exact ⟨h1, Or.inr (h2 he)⟩
    · exact ⟨h1, Or.inl he⟩

theorem betterTip_self (x : H × Nat) : betterTip x x = false := by
  simp [betterTip, hashLe_refl]

theorem betterTip_false_of {x y z : H × Nat} (hxy : betterTip x y = true)
    (hzy : betterTip z y = false) : betterTip z x = false := by
  rw [betterTip_eq_false_iff] at hzy ⊢
  simp only [betterTip, Bool.or_eq_true, Bool.and_eq_true, decide_eq_true_eq,
    beq_iff_eq, Bool.not_eq_true'] at hxy
  obtain ⟨hzy1, hzy2⟩ := hzy
  rcases hxy with h1 | ⟨h1, h1f⟩
  · exact ⟨by omega, fun he => by omega⟩
  · refine ⟨by omega, fun he => ?_⟩
    have hyz : hashLe y.1 z.1 = true := hzy2 (by omega)
    rcases hashLe_total x.1 y.1 with hxy1 | hxy1
    · exact hashLe_trans x.1 y.1 z.1 hxy1 hyz
    · rw [hxy1] at h1f; cases h1f

theorem pick_best_eq_none : ∀ l : List (H × Nat), pick_best l = none ↔ l = []
  | [] => by simp [pick_best]
  | _ :: _ => by simp [pick_best]

theorem pick_best_spec : ∀ (l : List (H × Nat)) (r : H × Nat),
    pick_best l = some r → r ∈ l ∧ ∀ x ∈ l, betterTip x r = false
  | [], r, h => by simp [pick_best] at h
  | x :: xs, r, h => by
    simp only [pick_best, Option.some.injEq] at h
    cases hxs : pick_best xs with
    | none =>
      rw [hxs, Option.elim_none] at h
      have hnil : xs = [] := (pick_best_eq_none xs).1 hxs
      subst h
      subst hnil
      refine ⟨List.mem_singleton_self x, ?_⟩
      intro z hz
      rw [List.mem_singleton] at hz
      subst hz
      exact betterTip_self z
    | some y =>
      rw [hxs, Option.elim_some] at h
      obtain ⟨hy_mem, hy_all⟩ := pick_best_spec xs y hxs
      by_cases hb : betterTip x y = true
      · rw [if_pos hb] at h
        subst h
        refine ⟨List.mem_cons_self x xs, ?_⟩
        intro z hz
        rcases List.mem_cons.1 hz with hz | hz
        · subst hz; exact betterTip_self z
        · exact betterTip_false_of hb (hy_all z hz)
      · rw [if_neg hb] at h
        subst h
        refine ⟨List.mem_cons_of_mem x hy_mem, ?_⟩
        intro z hz
        rcases List.mem_cons.1 hz with hz | hz
        · subst hz; exact Bool.eq_false_iff.2 hb
        · exact hy_all z hz

theorem pick_best_map_spec (score : H → Nat) (tips : List H) (t : H) (s : Nat)
    (h : pick_best (tips.map (fun u => (u, score u))) = some (t, s)) :
    t ∈ tips ∧ s = score t ∧
      ∀ u ∈ tips, score u < s ∨ (score u = s ∧ hashLe t u = true) := by
  obtain ⟨hmem, hall⟩ := pick_best_spec _ _ h
  obtain ⟨u, hu, heq⟩ := List.mem_map.1 hmem
  injection heq with h1 h2
  subst h1
  refine ⟨hu, h2.symm, ?_⟩
  intro v hv
  have hb := hall (v, score v) (List.mem_map_of_mem _ hv)
  rw [betterTip_eq_false_iff] at hb
  obtain ⟨hb1, hb2⟩ := hb
  dsimp at hb1 hb2
  by_cases hvs : score v = s
  · refine Or.inr ⟨hvs, ?_⟩
    have := hb2 (by omega)
    simpa using this
  · exact Or.inl (by omega)

theorem foldLevel_length (sha : List Nat → H) :
    ∀ l : List H, (foldLevel sha l).length = (l.length + 1) / 2
  | [] => by simp [foldLevel]
  | [_] => by simp [foldLevel]
  | _ :: _ :: rest => by
    simp only [foldLevel, List.length_cons, foldLevel_length sha rest]
    omega

theorem merkle_fold_isSome (sha : List Nat → H) :
    ∀ (fuel : Nat) (l : List H), l ≠ [] → l.length ≤ fuel + 1 →
      (merkle_fold sha fuel l).isSome = true
  | _, [], hne, _ => absurd rfl hne
  | fuel, [x], _, _ => by simp [merkle_fold]
  | 0, _ :: _ :: _, _, hlen => by simp at hlen
  | Nat.succ fuel, x :: y :: rest, _, hlen => by
    rw [merkle_fold]
    apply merkle_fold_isSome sha fuel
    · simp [foldLevel]
    · rw [foldLevel_length]
      simp only [List.length_cons] at hlen ⊢
      omega

theorem sortHashes_eq_of_perm {l1 l2 : List H} (hp : l1.Perm l2) :
    sortHashes l1 = sortHashes l2 := by
  haveI : IsTotal (List Nat) hle := ⟨fun a b => hashLe_total a b⟩
  haveI : IsTrans (List Nat) hle := ⟨fun a b c => hashLe_trans a b c⟩
  haveI : IsAntisymm (List Nat) hle := ⟨fun a b => hashLe_antisymm a b⟩
  exact List.eq_of_perm_of_sorted
    ((List.perm_insertionSort hle l1).trans
      (hp.trans (List.perm_insertionSort hle l2).symm))
    (List.sorted_insertionSort hle l1) (List.sorted_insertionSort hle l2)

theorem sortHashes_length (l : List H) : (sortHashes l).length = l.length :=
  (List.perm_insertionSort hle l).length_eq

theorem vctx_for_pending_total (st : NodeState) (a : PubKey) :
    (vctx_for st a).2.pending_total = st.pending_total := by
  unfold vctx_for
  cases alookup st.vctx_by_author a <;> rfl

theorem queue_pending_le (st : NodeState) (m : Message) (stats : ProcessStats)
    (h : st.pending_total ≤ MAX_PENDING_TOTAL) :
    (queue_pending_ st m stats).1.pending_total ≤ MAX_PENDING_TOTAL := by
  unfold queue_pending_
  split_ifs with hc
  · exact h
  · show st.pending_total + 1 ≤ MAX_PENDING_TOTAL
    omega

theorem requeue_all_le : ∀ (ms : List Message) (st : NodeState) (stats : ProcessStats),
    st.pending_total ≤ MAX_PENDING_TOTAL →
    (requeue_all st ms stats).1.pending_total ≤ MAX_PENDING_TOTAL
  | [], _, _, h => h
  | m :: rest, st, stats, h =>
    requeue_all_le rest _ _ (queue_pending_le st m stats h)

theorem drain_bucket_le (sha : List Nat → H)
    (verify : PubKey → List Nat → List Nat → Bool)
    (dp : NodeState → H → ProcessStats → NodeState × ProcessStats)
    (hdp : ∀ s p acc, s.pending_total ≤ MAX_PENDING_TOTAL →
      (dp s p acc).1.pending_total ≤ MAX_PENDING_TOTAL) :
    ∀ (bucket : List Message) (st : NodeState) (steps tick : Nat)
      (stats : ProcessStats), st.pending_total ≤ MAX_PENDING_TOTAL →
      (drain_bucket sha verify dp st bucket steps tick stats).1.pending_total ≤
        MAX_PENDING_TOTAL
  | [], _, _, _, _, h => h
  | child :: rest, st, 0, tick, stats, h =>
    requeue_all_le (child :: rest) st stats h
  | child :: rest, st, Nat.succ steps, tick, stats, h => by
    have hB : ((vctx_for st child.event.author).2).pending_total ≤
        MAX_PENDING_TOTAL := by
      rw [vctx_for_pending_total]; exact h
    simp only [drain_bucket]
    split
    · split
      · split
        · exact drain_bucket_le sha verify dp hdp rest _ steps tick stats hB
        · exact drain_bucket_le sha verify dp hdp rest _ steps tick _
            (hdp _ _ _ hB)
      · exact drain_bucket_le sha verify dp hdp rest _ steps tick stats hB
      · exact drain_bucket_le sha verify dp hdp rest _ steps tick _
          (queue_pending_le _ child stats hB)
    · exact drain_bucket_le sha verify dp hdp rest _ steps tick _ hB

theorem drain_pending_le (sha : List Nat → H)
    (verify : PubKey → List Nat → List Nat → Bool) :
    ∀ (fuel : Nat) (st : NodeState) (parent : H) (tick : Nat)
      (stats : ProcessStats), st.pending_total ≤ MAX_PENDING_TOTAL →
      (drain_pending_for_parent_ sha verify fuel st parent tick
        stats).1.pending_total ≤ MAX_PENDING_TOTAL
  | 0, _, _, _, _, h => h
  | Nat.succ fuel, st, parent, tick, stats, h => by
    simp only [drain_pending_for_parent_]
    split
    · exact h
    · exact drain_bucket_le sha verify _
        (fun s p acc hs => drain_pending_le sha verify fuel s p tick acc hs)
        _ _ MAX_DRAIN_STEPS tick stats
        (Nat.le_trans (Nat.sub_le _ _) h)

theorem accept_or_queue_le (sha : List Nat → H)
    (verify : PubKey → List Nat → List Nat → Bool) (fuel : Nat)
    (st : NodeState) (m : Message) (tick : Nat) (stats : ProcessStats)
    (h : st.pending_total ≤ MAX_PENDING_TOTAL) :
    (accept_or_queue_ sha verify fuel st m tick stats).2.1.pending_total ≤
      MAX_PENDING_TOTAL := by
  have hB : ((vctx_for st m.event.author).2).pending_total ≤
      MAX_PENDING_TOTAL := by
    rw [vctx_for_pending_total]; exact h
  simp only [accept_or_queue_]
  split
  · exact h
  · split
    · exact hB
    · split
      · exact drain_pending_le sha verify fuel _ _ tick _ hB
      · exact hB
      · exact queue_pending_le _ m stats hB

theorem process_msgs_le (sha : List Nat → H)
    (verify : PubKey → List Nat → List Nat → Bool) (fuel : Nat) :
    ∀ (ms : List Message) (st : NodeState) (tick : Nat)
      (stats : ProcessStats), st.pending_total ≤ MAX_PENDING_TOTAL →
      (process_msgs sha verify fuel st ms tick stats).1.pending_total ≤
        MAX_PENDING_TOTAL
  | [], _, _, _, h => h
  | m :: rest, st, tick, stats, h =>
    process_msgs_le sha verify fuel rest _ tick _
      (accept_or_queue_le sha verify fuel st m tick stats h)

theorem runOps_le (sha : List Nat → H)
    (verify : PubKey → List Nat → List Nat → Bool) (fuel : Nat) :
    ∀ (ops : List NodeOp) (st : NodeState),
      st.pending_total ≤ MAX_PENDING_TOTAL →
      (runOps sha verify fuel st ops).pending_total ≤ MAX_PENDING_TOTAL
  | [], _, h => h
  | NodeOp.localAppend m tick :: rest, st, h =>
    runOps_le sha verify fuel rest _
      (accept_or_queue_le sha verify fuel st m tick {} h)
  | NodeOp.processInbox tick :: rest, st, h =>
    runOps_le sha verify fuel rest _
      (process_msgs_le sha verify fuel st.inbox { st with inbox := [] } tick {} h)
  | NodeOp.inboxPush m :: rest, st, h =>
    runOps_le sha verify fuel rest _ h

/-- C1 (amended): for every event `E` and ledger state, `link_event(E)`
returns `Duplicate` iff `hash_event(E)` is already a key of `events`;
returns `MissingParent` iff the hash is not already a key, `E.prev_hash` is
non-zero and not a key of `events` — in which case the ledger state is
unchanged; and otherwise returns `LinkOk(h)` after inserting `(h, E)` into
`events`, adding `E.prev_hash → h` to `parent_index` when `prev_hash` is
non-zero, removing `E.prev_hash` from `tips` and inserting `h` into `tips`.
The amendment: the claim's `MissingParent` condition additionally requires
the hash not to be a duplicate, because the duplicate check runs first. -/
theorem c1_link_event_cases (sha : List Nat → H) (L : Ledger) (E : Event) :
    ((link_event sha L E).1 = LinkResult.Duplicate ↔
      (alookup L.events (hash_event sha E)).isSome = true) ∧
    ((link_event sha L E).1 = LinkResult.MissingParent ↔
      (alookup L.events (hash_event sha E) = none ∧ E.prev_hash ≠ zeroHash ∧
        alookup L.events E.prev_hash = none)) ∧
    ((link_event sha L E).1 = LinkResult.MissingParent →
      (link_event sha L E).2 = L) ∧
    (alookup L.events (hash_event sha E) = none →
      (E.prev_hash = zeroHash ∨ (alookup L.events E.prev_hash).isSome = true) →
      link_event sha L E =
        (LinkResult.LinkOk (hash_event sha E),
         { events := (hash_event sha E, E) :: L.events
           parent_index :=
             if E.prev_hash ≠ zeroHash then
               (E.prev_hash, hash_event sha E) :: L.parent_index
             else L.parent_index
           tips := hash_event sha E ::
             L.tips.filter (fun t => t ≠ E.prev_hash) })) := by
  simp only [link_event]
  by_cases h1 : (alookup L.events (hash_event sha E)).isSome = true
  · rw [if_pos h1]
    have h1n : alookup L.events (hash_event sha E) ≠ none :=
      Option.isSome_iff_ne_none.mp h1
    refine ⟨by simp [h1], ?_, by simp, ?_⟩
    · constructor
      · intro hc; cases hc
      · rintro ⟨hn, _, _⟩; exact absurd hn h1n
    · intro hn _; exact absurd hn h1n
  · rw [if_neg h1]
    have hn : alookup L.events (hash_event sha E) = none :=
      Option.not_isSome_iff_eq_none.mp h1
    by_cases h2 : (E.prev_hash ≠ zeroHash ∧ alookup L.events E.prev_hash = none)
    · rw [if_pos h2]
      refine ⟨by simp [h1], by simp [hn, h2.1, h2.2], by simp, ?_⟩
      intro _ hor
      rcases hor with hz | hs
      · exact absurd hz h2.1
      · rw [h2.2] at hs; cases hs
    · rw [if_neg h2]
      refine ⟨by simp [h1], ?_, by simp, fun _ _ => rfl⟩
      constructor
      · intro hc; cases hc
      · rintro ⟨_, hp, hq⟩; exact (h2 ⟨hp, hq⟩).elim

/-- C1 counterexample to the claim as frozen: in the ledger holding exactly
`evGen`, the event `evClash` (same `shaPayload` identity, non-zero absent
parent) makes `link_event` return `Duplicate`, yet the claim's
`MissingParent` condition — `prev_hash` non-zero and not a key — holds, so
the claimed equivalence is false. -/
theorem c1_link_event_counterexample :
    ¬ (((link_event shaPayload ledgerC1 evClash).1 = LinkResult.MissingParent) ↔
      (evClash.prev_hash ≠ zeroHash ∧
        alookup ledgerC1.events evClash.prev_hash = none)) := by decide

/-- C1 witness: the `LinkOk` clause of `c1_link_event_cases` evaluated on the
genesis event over the empty ledger. -/
theorem c1_link_event_witness :
    alookup emptyLedger.events (hash_event shaPayload evGen) = none ∧
    (evGen.prev_hash = zeroHash ∨
      (alookup emptyLedger.events evGen.prev_hash).isSome = true) ∧
    (link_event shaPayload emptyLedger evGen).1 =
      LinkResult.LinkOk (hash_event shaPayload evGen) :=
  ⟨by decide, by decide, by
    rw [(c1_link_event_cases shaPayload emptyLedger evGen).2.2.2
      (by decide) (by decide)]⟩

/-- C2: `merkle_root()` is `none` exactly on the empty ledger; otherwise it
is the pairwise duplicate-last fold of the lexicographically sorted accepted
hashes; and on a ledger holding exactly one accepted event with hash `h`,
it returns `h` unchanged as the only leaf. -/
theorem c2_merkle_root (sha : List Nat → H) (L : Ledger) :
    (merkle_root sha L = none ↔ L.events = []) ∧
    (L.events ≠ [] → merkle_root sha L =
      merkle_fold sha (L.events.map Prod.fst).length
        (sortHashes (L.events.map Prod.fst))) ∧
    (∀ h E pidx tps, merkle_root sha
      { events := [(h, E)], parent_index := pidx, tips := tps } = some h) := by
  refine ⟨⟨?_, ?_⟩, fun _ => rfl, ?_⟩
  · intro hnone
    by_contra hne
    have hks : L.events.map Prod.fst ≠ [] := by
      intro hk; exact hne (List.map_eq_nil_iff.mp hk)
    have hs : sortHashes (L.events.map Prod.fst) ≠ [] := by
      intro hs0
      have hlen := sortHashes_length (L.events.map Prod.fst)
      rw [hs0] at hlen
      exact hks (List.length_eq_zero.mp hlen.symm)
    have hsome := merkle_fold_isSome sha (L.events.map Prod.fst).length _ hs
      (by rw [sortHashes_length]; exact Nat.le_succ _)
    simp only [merkle_root] at hnone
    rw [hnone] at hsome
    cases hsome
  · intro he
    simp [merkle_root, he, sortHashes, List.insertionSort, merkle_fold]
  · intro h E pidx tps
    simp [merkle_root, sortHashes, List.insertionSort, List.orderedInsert,
      merkle_fold]

/-- C2 witness: the singleton clause of `c2_merkle_root` evaluated on a
one-event ledger — the root is the single leaf unchanged. -/
theorem c2_merkle_root_witness :
    merkle_root shaPayload
      { events := [(List.replicate 32 5, ev5)], parent_index := [],
        tips := [List.replicate 32 5] } = some (List.replicate 32 5) :=
  (c2_merkle_root shaPayload emptyLedger).2.2 (List.replicate 32 5) ev5 []
    [List.replicate 32 5]

/-- C3: `validate(E, ctx)` returns `InvalidVersion` iff `E.version ≠ 1`;
otherwise `InvalidSignature` iff verification fails; otherwise
`TimestampNonMonotonic` iff `ctx.last_timestamp > 0` and
`E.timestamp + max(1, skew) < ctx.last_timestamp`; the context advances to
`max(last_timestamp, E.timestamp)` on `Ok` and is unchanged on every
rejection. -/
theorem validate_event_eq_invalid_version
    (verify : PubKey → List Nat → List Nat → Bool) (skewCfg : Nat) (E : Event)
    (ctx : ValidationCtx) (h1 : E.version ≠ 1) :
    validate_event verify skewCfg E ctx = (ValidationResult.InvalidVersion, ctx) := by
  simp [validate_event, h1]

theorem validate_event_eq_invalid_sig
    (verify : PubKey → List Nat → List Nat → Bool) (skewCfg : Nat) (E : Event)
    (ctx : ValidationCtx) (h1 : E.version = 1)
    (h2 : verify E.author (canonical_bytes E) E.signature = false) :
    validate_event verify skewCfg E ctx = (ValidationResult.InvalidSignature, ctx) := by
  simp [validate_event, h1, h2]

theorem validate_event_eq_ts (verify : PubKey → List Nat → List Nat → Bool)
    (skewCfg : Nat) (E : Event) (ctx : ValidationCtx) (h1 : E.version = 1)
    (h2 : verify E.author (canonical_bytes E) E.signature = true)
    (h3 : 0 < ctx.last_timestamp ∧
      E.timestamp + max 1 skewCfg < ctx.last_timestamp) :
    validate_event verify skewCfg E ctx =
      (ValidationResult.TimestampNonMonotonic, ctx) := by
  simp [validate_event, h1, h2, h3.1, h3.2]

theorem validate_event_eq_ok (verify : PubKey → List Nat → List Nat → Bool)
    (skewCfg : Nat) (E : Event) (ctx : ValidationCtx) (h1 : E.version = 1)
    (h2 : verify E.author (canonical_bytes E) E.signature = true)
    (h3 : ¬ (0 < ctx.last_timestamp ∧
      E.timestamp + max 1 skewCfg < ctx.last_timestamp)) :
    validate_event verify skewCfg E ctx =
      (ValidationResult.Ok,
       { last_timestamp := max ctx.last_timestamp E.timestamp }) := by
  simp [validate_event, h1, h2, h3]

theorem c3_validate_event (verify : PubKey → List Nat → List Nat → Bool)
    (skewCfg : Nat) (E : Event) (ctx : ValidationCtx) :
    ((validate_event verify skewCfg E ctx).1 = ValidationResult.InvalidVersion ↔
      E.version ≠ 1) ∧
    ((validate_event verify skewCfg E ctx).1 = ValidationResult.InvalidSignature ↔
      (E.version = 1 ∧ verify E.author (canonical_bytes E) E.signature = false)) ∧
    ((validate_event verify skewCfg E ctx).1 =
        ValidationResult.TimestampNonMonotonic ↔
      (E.version = 1 ∧ verify E.author (canonical_bytes E) E.signature = true ∧
        0 < ctx.last_timestamp ∧
        E.timestamp + max 1 skewCfg < ctx.last_timestamp)) ∧
    ((validate_event verify skewCfg E ctx).2 =
      if (validate_event verify skewCfg E ctx).1 = ValidationResult.Ok then
        { last_timestamp := max ctx.last_timestamp E.timestamp }
      else ctx) := by
  by_cases h1 : E.version ≠ 1
  · rw [validate_event_eq_invalid_version verify skewCfg E ctx h1]
    exact ⟨by simp [h1], by simp [h1], by simp [h1], by simp⟩
  · have h1e : E.version = 1 := not_ne_iff.mp h1
    by_cases h2 : verify E.author (canonical_bytes E) E.signature = false
    · rw [validate_event_eq_invalid_sig verify skewCfg E ctx h1e h2]
      exact ⟨by simp [h1], by simp [h1e, h2], by simp [h2], by simp⟩
    · have h2t : verify E.author (canonical_bytes E) E.signature = true := by
        cases hv : verify E.author (canonical_bytes E) E.signature with
        | false => exact absurd hv h2
        | true => rfl
      by_cases h3 : (0 < ctx.last_timestamp ∧
          E.timestamp + max 1 skewCfg < ctx.last_timestamp)
      · rw [validate_event_eq_ts verify skewCfg E ctx h1e h2t h3]
        exact ⟨by simp [h1], by simp [h2], by simp [h1e, h2t, h3.1, h3.2],
          by simp⟩
      · rw [validate_event_eq_ok verify skewCfg E ctx h1e h2t h3]
        refine ⟨by simp [h1], by simp [h2], ?_, by simp⟩
        constructor
        · intro hc; cases hc
        · rintro ⟨_, _, ha, hb⟩; exact (h3 ⟨ha, hb⟩).elim

/-- C3 witness: `c3_validate_event` evaluated on the genesis event with the
all-accepting verifier and a fresh context — the update clause holds. -/
theorem c3_validate_event_witness :
    (validate_event verifyTrue 5 evGen { last_timestamp := 0 }).2 =
      if (validate_event verifyTrue 5 evGen { last_timestamp := 0 }).1 =
          ValidationResult.Ok then
        { last_timestamp := max 0 evGen.timestamp }
      else { last_timestamp := 0 } :=
  (c3_validate_event verifyTrue 5 evGen { last_timestamp := 0 }).2.2.2

/-- C8: observing a hash that is not a key of the ledger's accepted events
is a complete no-op — the overlay, including its per-author state and its
trace, is returned unchanged. -/
theorem c8_observe_unknown (L : Ledger) (ov : SybilOverlay) (tick obs : Nat)
    (h : H) (hnone : alookup L.events h = none) :
    observe_event L tick obs h ov = ov := by
  simp [observe_event, hnone]

/-- C8 witness: observing an unknown hash on the one-event ledger leaves the
overlay untouched. -/
theorem c8_observe_unknown_witness :
    alookup ledger5.events hUnknown = none ∧
    observe_event ledger5 3 0 hUnknown ov5 = ov5 :=
  ⟨by decide, c8_observe_unknown ledger5 ov5 3 0 hUnknown (by decide)⟩

/-- C9: `NodeRuntime::local_append` returns `true` for every message, tick
and node state — the accept result (accepted, pending or rejected) is
discarded. -/
theorem c9_local_append_true (sha : List Nat → H)
    (verify : PubKey → List Nat → List Nat → Bool) (fuel : Nat)
    (st : NodeState) (m : Message) (tick : Nat) :
    (local_append sha verify fuel st m tick).1 = true := rfl

/-- C4: when the observed author already has a latest tip `pt` and neither
`is_ancestor(pt, h)` nor `is_ancestor(h, pt)` holds within `max_link_walk`,
`observe_event` sets the author's `quarantined_until` to
`max(quarantined_until, tick + quarantine_ticks)` and the latest tip to `h`;
in particular, after one author links the two genesis-parent events `evA4`
and `evB4` and both are observed at tick 5, `quarantined_until` equals
`5 + quarantine_ticks` and `author_weight_fp` at tick 5 is 0. -/
theorem c4_observe_equivocation (L : Ledger) (ov : SybilOverlay)
    (tick obs : Nat) (h : H) (E : Event) (st : AuthorState) (pt : H)
    (hE : alookup L.events h = some E)
    (hst : alookup ov.state E.author = some st)
    (hpt : st.latest_tip = some pt)
    (ha1 : is_ancestor L pt h ov.config.max_link_walk = false)
    (ha2 : is_ancestor L h pt ov.config.max_link_walk = false) :
    alookup (observe_event L tick obs h ov).state E.author =
      some { latest_tip := some h, first_seen_tick := st.first_seen_tick
             quarantined_until :=
               max st.quarantined_until (tick + ov.config.quarantine_ticks) } ∧
    alookup ov4.state secA = some
      { latest_tip := some (hash_event shaPayload evB4), first_seen_tick := 5
        quarantined_until := 5 + 12 } ∧
    author_weight_fp ov4 5 secA = 0 := by
  refine ⟨?_, by decide, by decide⟩
  simp only [observe_event, hE]
  simp only [hst, Option.getD_some, hpt, ha1, ha2, Bool.or_self,
    Bool.false_eq_true, if_false]
  simp [alookup_aset_self]

/-- C4 witness: `c4_observe_equivocation` evaluated on the concrete
equivocation scenario at tick 5. -/
theorem c4_observe_equivocation_witness :
    alookup ledger4.events (hash_event shaPayload evB4) = some evB4 ∧
    alookup ov4a.state evB4.author = some
      { latest_tip := some (hash_event shaPayload evA4), first_seen_tick := 5
        quarantined_until := 0 } ∧
    is_ancestor ledger4 (hash_event shaPayload evA4)
      (hash_event shaPayload evB4) ov4a.config.max_link_walk = false ∧
    is_ancestor ledger4 (hash_event shaPayload evB4)
      (hash_event shaPayload evA4) ov4a.config.max_link_walk = false ∧
    alookup (observe_event ledger4 5 0 (hash_event shaPayload evB4)
        ov4a).state evB4.author =
      some { latest_tip := some (hash_event shaPayload evB4)
             first_seen_tick := 5
             quarantined_until := max 0 (5 + ov4a.config.quarantine_ticks) } :=
  ⟨by decide, by decide, by decide, by decide,
   (c4_observe_equivocation ledger4 ov4a 5 0 (hash_event shaPayload evB4) evB4
     { latest_tip := some (hash_event shaPayload evA4), first_seen_tick := 5
       quarantined_until := 0 }
     (hash_event shaPayload evA4) (by decide) (by decide) rfl (by decide)
     (by decide)).1⟩

/-- C5: `author_weight_fp(tick, author)` is 0 for an unknown author, 0 while
`tick < quarantined_until`, the full `fixed_point_scale` once
`age = tick - first_seen_tick` (saturating) reaches `warmup_ticks`, and the
integer ramp `fixed_point_scale * age / warmup_ticks` during warmup; for a
fresh author first observed at tick 10 with `warmup_ticks = 4` and
`fixed_point_scale = 1000`, the weights at ticks 10..14 are 0, 250, 500,
750, 1000. -/
theorem c5_author_weight (ov : SybilOverlay) (tick : Nat) (author : PubKey) :
    (alookup ov.state author = none → author_weight_fp ov tick author = 0) ∧
    (∀ st : AuthorState, alookup ov.state author = some st →
      (tick < st.quarantined_until → author_weight_fp ov tick author = 0) ∧
      (st.quarantined_until ≤ tick →
        ov.config.warmup_ticks ≤ tick - st.first_seen_tick →
        author_weight_fp ov tick author = ov.config.fixed_point_scale) ∧
      (st.quarantined_until ≤ tick →
        tick - st.first_seen_tick < ov.config.warmup_ticks →
        author_weight_fp ov tick author =
          ov.config.fixed_point_scale * (tick - st.first_seen_tick) /
            ov.config.warmup_ticks)) ∧
    (author_weight_fp ov5 10 secA = 0 ∧ author_weight_fp ov5 11 secA = 250 ∧
      author_weight_fp ov5 12 secA = 500 ∧ author_weight_fp ov5 13 secA = 750 ∧
      author_weight_fp ov5 14 secA = 1000) := by
  refine ⟨?_, ?_, by decide⟩
  · intro h
    simp [author_weight_fp, h]
  · intro st hst
    refine ⟨?_, ?_, ?_⟩
    · intro hq
      simp [author_weight_fp, hst, hq]
    · intro hq hw
      have h1 : ¬ tick < st.quarantined_until := by omega
      simp [author_weight_fp, hst, h1, hw]
    · intro hq hw
      have h1 : ¬ tick < st.quarantined_until := by omega
      have h2 : ¬ ov.config.warmup_ticks ≤ tick - st.first_seen_tick := by omega
      simp [author_weight_fp, hst, h1, h2]

/-- C5 witness: the post-warmup clause of `c5_author_weight` evaluated on the
warmup-ramp scenario at tick 14. -/
theorem c5_author_weight_witness :
    alookup ov5.state secA = some
      { latest_tip := some (hash_event shaPayload ev5), first_seen_tick := 10
        quarantined_until := 0 } ∧
    author_weight_fp ov5 14 secA = ov5.config.fixed_point_scale :=
  ⟨by decide,
   ((c5_author_weight ov5 14 secA).2.1
     { latest_tip := some (hash_event shaPayload ev5), first_seen_tick := 10
       quarantined_until := 0 }
     (by decide)).2.1 (by decide) (by decide)⟩

/-- C6: two ledgers with the same set of accepted hashes (each without
duplicate keys) have byte-identical `merkle_root`, regardless of the order
in which the events were linked. -/
theorem c6_merkle_determinism (sha : List Nat → H) (L1 L2 : Ledger)
    (h1 : (L1.events.map Prod.fst).Nodup)
    (h2 : (L2.events.map Prod.fst).Nodup)
    (hset : ∀ h : H, h ∈ L1.events.map Prod.fst ↔ h ∈ L2.events.map Prod.fst) :
    merkle_root sha L1 = merkle_root sha L2 := by
  have hperm : (L1.events.map Prod.fst).Perm (L2.events.map Prod.fst) :=
    (List.perm_ext_iff_of_nodup h1 h2).2 hset
  simp only [merkle_root]
  rw [sortHashes_eq_of_perm hperm, hperm.length_eq]

/-- C6 witness: the two orders of linking `evA4` and `evB4` give the same
Merkle root. -/
theorem c6_merkle_determinism_witness :
    merkle_root shaPayload ledger4 = merkle_root shaPayload ledger4r := by
  apply c6_merkle_determinism shaPayload ledger4 ledger4r (by decide) (by decide)
  intro x
  have e1 : ledger4.events.map Prod.fst =
      [List.replicate 32 4, List.replicate 32 3] := by decide
  have e2 : ledger4r.events.map Prod.fst =
      [List.replicate 32 3, List.replicate 32 4] := by decide
  rw [e1, e2]
  simp only [List.mem_cons, List.not_mem_nil, or_false]
  tauto

/-- C7: under the tip-set invariant, both preferred-tip policies return
`none` exactly on the empty ledger; the unit policy's result does not depend
on the tick; and each policy returns a tip of maximal score that is the
lexicographically smallest among the tips attaining that score. -/
theorem c7_preferred_tip (L : Ledger) (ov : SybilOverlay)
    (tick1 tick2 max_steps : Nat) (hinv : L.tips = [] ↔ L.events = []) :
    (select_preferred_tip L tick1 max_steps = none ↔ L.events = []) ∧
    (select_preferred_tip_sybil L ov tick1 max_steps = none ↔
      L.events = []) ∧
    select_preferred_tip L tick1 max_steps =
      select_preferred_tip L tick2 max_steps ∧
    (∀ t s, select_preferred_tip L tick1 max_steps = some (t, s) →
      t ∈ L.tips ∧ s = chain_len L t max_steps ∧
      ∀ u ∈ L.tips, chain_len L u max_steps < s ∨
        (chain_len L u max_steps = s ∧ hashLe t u = true)) ∧
    (∀ t s, select_preferred_tip_sybil L ov tick1 max_steps = some (t, s) →
      t ∈ L.tips ∧ s = sybil_score L ov tick1 t max_steps ∧
      ∀ u ∈ L.tips, sybil_score L ov tick1 u max_steps < s ∨
        (sybil_score L ov tick1 u max_steps = s ∧ hashLe t u = true)) := by
  refine ⟨?_, ?_, rfl, ?_, ?_⟩
  · rw [select_preferred_tip, pick_best_eq_none, List.map_eq_nil_iff]
    exact hinv
  · rw [select_preferred_tip_sybil, pick_best_eq_none, List.map_eq_nil_iff]
    exact hinv
  · intro t s hsel
    exact pick_best_map_spec _ _ _ _ hsel
  · intro t s hsel
    exact pick_best_map_spec _ _ _ _ hsel

/-- C7 witness: the empty-ledger equivalence of `c7_preferred_tip` on the
two-tip ledger of the equivocation scenario. -/
theorem c7_preferred_tip_witness :
    (ledger4.tips = [] ↔ ledger4.events = []) ∧
    (select_preferred_tip ledger4 0 8 = none ↔ ledger4.events = []) :=
  ⟨by decide, (c7_preferred_tip ledger4 ov4 0 1 8 (by decide)).1⟩

/-- C10: across every sequence of `local_append`, `process_inbox` and
`inbox_push` calls from a fresh node, `pending_total_` never exceeds
`MAX_PENDING_TOTAL` (16384); and at capacity `queue_pending_` drops the new
message, counting it in `pending_dropped`, instead of queueing it. -/
theorem c10_pending_bound (sha : List Nat → H)
    (verify : PubKey → List Nat → List Nat → Bool) (fuel id : Nat)
    (author : PubKey) (ops : List NodeOp) :
    (runOps sha verify fuel (initNode id author) ops).pending_total ≤
      MAX_PENDING_TOTAL ∧
    (∀ (st : NodeState) (m : Message) (stats : ProcessStats) (k : Nat),
      queue_pending_ { st with pending_total := MAX_PENDING_TOTAL + k } m
          stats =
        ({ st with pending_total := MAX_PENDING_TOTAL + k },
         { stats with pending_dropped := stats.pending_dropped + 1 })) := by
  constructor
  · exact runOps_le sha verify fuel ops _ (Nat.zero_le _)
  · intro st m stats k
    unfold queue_pending_
    rw [if_pos (Nat.le_add_right MAX_PENDING_TOTAL k)]
